import Mathlib

/-!
Verification of the decision-tree classifier (src/decisiontree.py, with the
older variant src/DecisionTree.py used for the refinement claim).

Shallow embedding conventions:
* Python string tokens (attribute values, class labels, attribute names) are
  Lean `String`s.
* An example (a `namedtuple` whose fields are the attribute values followed by
  the classification label) is the structure `Ex`.
* Counting arithmetic (`plurality_value`, `pos_neg`) is exact over `ℚ`/`ℕ`;
  the entropy arithmetic (`H`, `B`, `Remainder`, `Gain`) is over `ℝ`, with
  `math.log2` embedded as `Real.logb 2`.
* Python's `try/except` around whole-expression evaluation is embedded by the
  corresponding branch condition (see `H` and `Remainder`).
* The recursion of `_generate` is embedded with an explicit fuel parameter:
  `none` means the fuel ran out before the recursion finished.  On the calls
  the program actually makes (examples a sublist of the parent examples,
  domains without duplicates), each recursion level adds a fresh attribute to
  the used list, so `attrs.length + 1` levels always suffice; `generate` is
  instantiated with that fuel.
* Functions that can raise an uncaught Python exception relevant to a claim
  are given an exception-aware variant returning `Except String _` whose
  error value names the Python exception type (see `plurality_valueE`).
-/

namespace DecisionTree

/-- One training example: the tuple of attribute values (in declared attribute
order) plus the classification label, mirroring the `namedtuple` with fields
`attrs + ['classification']`. -/
structure Ex where
  values : List String
  classification : String
deriving DecidableEq, Inhabited

/-- Positional indexing `dp[A]` on the namedtuple: index `len(values)` is the
classification field; out-of-range indices (a Python `IndexError`) are junked
to `""`. -/
def dpGet (dp : Ex) (A : ℕ) : String :=
  (dp.values ++ [dp.classification]).getD A ""

/-- The configuration a `DecisionTree` instance carries when `generate` runs:
`self.attrs` (ordered attribute names), `self._attr_values` (domain of each
attribute name, a dict embedded as a function), `self.classes`, and
`self.classifier` (the positive-class predicate over an example). -/
structure Config where
  attrs : List String
  attrValues : String → List String
  classes : List String
  classifier : Ex → Bool

/-- `domain(idx) = self._attr_values[self.attrs[idx]]` from `generate`. -/
def Config.domain (cfg : Config) (idx : ℕ) : List String :=
  cfg.attrValues (cfg.attrs.getD idx "")

/-- The tree value built by `_generate` / `generate`: a bare classification
string (`leaf`), the root marker tuple `(None, label)` (`degen`), or a tuple
`(A, child_1, ..., child_k)` (`node`, whose `attr` occupies the tuple's first
slot and whose `children` are the remaining `k` slots). -/
inductive Tree where
  | leaf (label : String)
  | degen (label : String)
  | node (attr : ℕ) (children : List Tree)
deriving Inhabited

/-- `plurality_value(examples, classs)`: the fraction of `examples` whose
classification equals `classs`.  Python raises `ZeroDivisionError` on an empty
example list; this total version uses the `ℚ` convention `q / 0 = 0` and the
exception is exposed separately by `plurality_valueE`. -/
def plurality_value (examples : List Ex) (c : String) : ℚ :=
  ((examples.countP (fun x => x.classification == c) : ℚ)) / ((examples.length : ℚ))

/-- Exception-aware `plurality_value`: `total/len(examples)` raises
`ZeroDivisionError` exactly when `examples` is empty. -/
def plurality_valueE (examples : List Ex) (c : String) : Except String ℚ :=
  if examples.length = 0 then Except.error "ZeroDivisionError"
  else Except.ok (plurality_value examples c)

/-- `fully_classified(examples, classes)`: true when some declared class has
plurality value exactly `1`. -/
def fully_classified (examples : List Ex) (classes : List String) : Bool :=
  classes.any (fun c => decide (plurality_value examples c = 1))

/-- CPython's `max(..., key=lambda x: x[1])` loop: keep the current best,
replace it only on a strictly greater key, so the first element attaining the
maximal key wins. -/
def pyMaxBy (best : String × ℚ) : List (String × ℚ) → String
  | [] => best.1
  | p :: rest => if best.2 < p.2 then pyMaxBy p rest else pyMaxBy best rest

/-- `plurality(examples, classes)`: the first class (in declared order)
attaining the maximal plurality value.  `max` of an empty sequence raises
`ValueError` in Python; that case is junked to `""` here and exposed by
`pluralityE`. -/
def plurality (examples : List Ex) (classes : List String) : String :=
  match classes.map (fun c => (c, plurality_value examples c)) with
  | [] => ""
  | p :: rest => pyMaxBy p rest

/-- Exception-aware `plurality`: the comprehension evaluates
`plurality_value` for each class first (raising `ZeroDivisionError` on an
empty example list when at least one class is declared), and `max([])` raises
`ValueError`. -/
def pluralityE (examples : List Ex) (classes : List String) : Except String String :=
  match classes with
  | [] => Except.error "ValueError"
  | _ :: _ =>
    if examples.length = 0 then Except.error "ZeroDivisionError"
    else Except.ok (plurality examples classes)

/-- `pos_neg(examples, classifier)`: how many examples satisfy the predicate,
and how many do not. -/
def pos_neg (examples : List Ex) (classifier : Ex → Bool) : ℕ × ℕ :=
  (examples.countP classifier, examples.length - examples.countP classifier)

open Classical in
/-- `H(*probs)`: Python computes `-1*sum(map(lambda vk: math.log2(vk)*vk, probs))`
inside a `try` whose `except ValueError` returns `0`.  `math.log2` raises
`ValueError` exactly on arguments `≤ 0`, and the exception aborts the whole
sum, so the function returns the entropy sum only when every weight is
strictly positive and returns `0` otherwise. -/
noncomputable def H (probs : List ℝ) : ℝ :=
  if ∀ vk ∈ probs, 0 < vk then -((probs.map (fun vk => Real.logb 2 vk * vk)).sum)
  else 0

/-- What the specification asserts `entropy` does: drop only the zero-valued
terms and keep every other term.  (Written from the spec's words for the C6
comparison; `Real.logb 2 0 = 0` already makes the dropped term literal.) -/
noncomputable def H_dropZeros (probs : List ℝ) : ℝ :=
  -((probs.map (fun vk => if vk = 0 then 0 else Real.logb 2 vk * vk)).sum)

/-- `B(q) = H(q, 1-q)`. -/
noncomputable def B (q : ℝ) : ℝ :=
  H [q, 1 - q]

/-- `Remainder(examples, A, V, p, n, pos_class_func)`: for each domain value
`d` of attribute `A`, filter the matching examples, count them with `pos_neg`,
and add `((pk+nk)/(p+n)) * B(pk/(pk+nk))`; the `try/except ZeroDivisionError`
leaves the contribution at `0` exactly when one of the two divisions has a
zero denominator (`p+n = 0` for the first, `pk+nk = 0` for the second). -/
noncomputable def Remainder (examples : List Ex) (A : ℕ) (V : List String)
    (p n : ℕ) (pos_class_func : Ex → Bool) : ℝ :=
  (V.map (fun d =>
    let Ek := examples.filter (fun dp => dpGet dp A == d)
    let pk := Ek.countP pos_class_func
    let nk := Ek.length - pk
    if pk + nk = 0 ∨ p + n = 0 then 0
    else ((pk : ℝ) + (nk : ℝ)) / ((p : ℝ) + (n : ℝ)) * B ((pk : ℝ) / ((pk : ℝ) + (nk : ℝ))))).sum

/-- `Gain(examples, A, V, p, n, pos_class_func) = B(p/(p+n)) - Remainder(...)`.
With `p + n = 0` Python would raise an uncaught `ZeroDivisionError`; the total
embedding returns the `ℝ`-convention junk value there (that situation is only
reachable from an empty parent example list, which the callers exclude). -/
noncomputable def Gain (examples : List Ex) (A : ℕ) (V : List String)
    (p n : ℕ) (pos_class_func : Ex → Bool) : ℝ :=
  B ((p : ℝ) / ((p : ℝ) + (n : ℝ))) - Remainder examples A V p n pos_class_func

open Classical in
/-- Value of Python's `max(gain)` on a list of floats (the maximum; `[]` is
junked to `0`, Python would raise `ValueError`). -/
noncomputable def pyMaxR : List ℝ → ℝ
  | [] => 0
  | [x] => x
  | x :: y :: rest => max x (pyMaxR (y :: rest))

open Classical in
/-- `gain.index(max(gain))`: the first index whose entry equals the maximum. -/
noncomputable def idxOfMax : List ℝ → ℕ
  | [] => 0
  | x :: rest => if x = pyMaxR (x :: rest) then 0 else idxOfMax rest + 1

/-- The child-building loop of the new `_generate` (src/decisiontree.py lines
167-175): `used` was already extended before the loop, so every iteration
either appends the plurality leaf (when `depth == 0`) or recurses on the
partition for its domain value with the same `recur`. -/
def loopNew (recur : List Ex → Option Tree) (filt : String → List Ex)
    (isZero : Bool) (plur : Tree) : List String → Option (List Tree)
  | [] => some []
  | vk :: rest =>
    if isZero then
      match loopNew recur filt isZero plur rest with
      | none => none
      | some cs => some (plur :: cs)
    else
      match recur (filt vk) with
      | none => none
      | some c =>
        match loopNew recur filt isZero plur rest with
        | none => none
        | some cs => some (c :: cs)

/-- The child-building loop of the old `_generate` (src/DecisionTree.py lines
160-168): when `depth != 0` the loop body first appends the selected
attribute's name to the (mutable) `used` list and then recurses, so the i-th
recursive call sees `used` extended with `i` copies of the name; the
accumulator argument threads that mutation. -/
def loopOld (recur : List Ex → List String → Option Tree) (filt : String → List Ex)
    (isZero : Bool) (plur : Tree) (name : String) :
    List String → List String → Option (List Tree)
  | _, [] => some []
  | used, vk :: rest =>
    if isZero then
      match loopOld recur filt isZero plur name used rest with
      | none => none
      | some cs => some (plur :: cs)
    else
      match recur (filt vk) (used ++ [name]) with
      | none => none
      | some c =>
        match loopOld recur filt isZero plur name (used ++ [name]) rest with
        | none => none
        | some cs => some (c :: cs)

/-- The inner recursive procedure `_generate(depth, examples, parent_examples,
used_attrs)` of src/decisiontree.py (lines 141-177), with explicit fuel.  The
branches, in source order: empty examples return the parent plurality; a fully
classified set returns `examples[0].classification`; when no attribute name is
left unused return the plurality of `examples`; otherwise build the gain list
(`-1` for used attribute names, `Gain` with `(p, n) = pos_neg(parent_examples)`
for the rest), select `A = gain.index(max(gain))`, append `attrs[A]` to the
used list once, and build one child per value of `domain(A)` in order. -/
noncomputable def _generate (cfg : Config) (fuel : ℕ) (depth : ℤ)
    (examples parent_examples : List Ex) (used_attrs : List String) : Option Tree :=
  match fuel with
  | 0 => none
  | fuel' + 1 =>
    if examples.isEmpty then
      some (Tree.leaf (plurality parent_examples cfg.classes))
    else if fully_classified examples cfg.classes then
      some (Tree.leaf (examples.headD default).classification)
    else if cfg.attrs.all (fun s => used_attrs.contains s) then
      some (Tree.leaf (plurality examples cfg.classes))
    else
      let pn := pos_neg parent_examples cfg.classifier
      let gains := (List.range cfg.attrs.length).map (fun a =>
        if used_attrs.contains (cfg.attrs.getD a "") then (-1 : ℝ)
        else Gain examples a (cfg.domain a) pn.1 pn.2 cfg.classifier)
      let A := idxOfMax gains
      let used2 := used_attrs ++ [cfg.attrs.getD A ""]
      match loopNew (fun exs => _generate cfg fuel' (depth - 1) exs examples used2)
          (fun vk => examples.filter (fun dp => dpGet dp A == vk))
          (decide (depth = 0)) (Tree.leaf (plurality examples cfg.classes))
          (cfg.domain A) with
      | none => none
      | some cs => some (Tree.node A cs)

/-- The inner recursive procedure `_generate` of the older src/DecisionTree.py
(lines 134-170).  Identical to the new one except that the selected attribute
name is appended to the used list inside the child loop, once per domain value,
instead of once before it. -/
noncomputable def _generateOld (cfg : Config) (fuel : ℕ) (depth : ℤ)
    (examples parent_examples : List Ex) (used_attrs : List String) : Option Tree :=
  match fuel with
  | 0 => none
  | fuel' + 1 =>
    if examples.isEmpty then
      some (Tree.leaf (plurality parent_examples cfg.classes))
    else if fully_classified examples cfg.classes then
      some (Tree.leaf (examples.headD default).classification)
    else if cfg.attrs.all (fun s => used_attrs.contains s) then
      some (Tree.leaf (plurality examples cfg.classes))
    else
      let pn := pos_neg parent_examples cfg.classifier
      let gains := (List.range cfg.attrs.length).map (fun a =>
        if used_attrs.contains (cfg.attrs.getD a "") then (-1 : ℝ)
        else Gain examples a (cfg.domain a) pn.1 pn.2 cfg.classifier)
      let A := idxOfMax gains
      match loopOld (fun exs u => _generateOld cfg fuel' (depth - 1) exs examples u)
          (fun vk => examples.filter (fun dp => dpGet dp A == vk))
          (decide (depth = 0)) (Tree.leaf (plurality examples cfg.classes))
          (cfg.attrs.getD A "") used_attrs (cfg.domain A) with
      | none => none
      | some cs => some (Tree.node A cs)

/-- The gain list built by the selection step of `_generate` (lines 156-164):
entry `a` is `-1` when attribute `a`'s name is already used, and otherwise the
information gain of attribute `a` with `(p, n) = pos_neg(parent_examples,
classifier)`.  Named so the selection lemmas can speak about it; `_generate`
builds exactly this list. -/
noncomputable def gainsList (cfg : Config) (examples parent_examples : List Ex)
    (used_attrs : List String) : List ℝ :=
  (List.range cfg.attrs.length).map (fun a =>
    if used_attrs.contains (cfg.attrs.getD a "") then (-1 : ℝ)
    else Gain examples a (cfg.domain a)
      (pos_neg parent_examples cfg.classifier).1
      (pos_neg parent_examples cfg.classifier).2 cfg.classifier)

/-- The gain the claim says the selection step assigns to attribute index
`a`: `-1` for an attribute whose name is already used (its statistics are
never computed), otherwise the information gain of attribute `a` where
`(p, n)` are counted over `parent_examples` (not the current examples) by the
positive-class predicate.  Stated with plain membership and counts so the
selection theorem can be read against the claim; `gainsList` entry `a` is
proved equal to it. -/
noncomputable def selGain (cfg : Config) (examples parent_examples : List Ex)
    (used : List String) (a : ℕ) : ℝ :=
  if cfg.attrs.getD a "" ∈ used then -1
  else Gain examples a (cfg.domain a)
    (parent_examples.countP cfg.classifier)
    (parent_examples.length - parent_examples.countP cfg.classifier) cfg.classifier

/-- `generate(self, examples, depth=-1, avoid=[])` of src/decisiontree.py:
run `_generate(depth, examples, examples, avoid)` and wrap a bare
classification result as the degenerate marker `(None, label)`. -/
noncomputable def generate (cfg : Config) (examples : List Ex) (depth : ℤ)
    (avoid : List String) : Option Tree :=
  match _generate cfg (cfg.attrs.length + 1) depth examples examples avoid with
  | some (Tree.leaf s) => some (Tree.degen s)
  | r => r

/-- The nested-dict traversal structure built by `traversify` inside
`classify`: `{None: label}` for the degenerate marker, a raw label string
stored as a dict value, or `{"attr": name, v1: child, ...}` with the children
keyed by the domain values in declared order. -/
inductive Trav where
  | const (label : String)
  | lab (label : String)
  | tnode (attrName : String) (entries : List (String × Trav))

mutual

/-- `traversify(node)` of `classify` (src/decisiontree.py lines 187-203):
the `(None, label)` marker becomes `{None: label}`; a tuple node becomes a
dict keyed by its attribute's domain values, each child traversified when it
is a tuple and stored raw when it is a bare label.  (A bare label passed to
`traversify` itself would crash Python; it is junked to the raw-label value
here and is unreachable from `generate`'s output.) -/
def traversify (cfg : Config) : Tree → Trav
  | Tree.degen l => Trav.const l
  | Tree.leaf l => Trav.lab l
  | Tree.node A cs =>
    Trav.tnode (cfg.attrs.getD A "") (travZip cfg (cfg.attrValues (cfg.attrs.getD A "")) cs)

/-- The `for i in range(len(self._attr_values[attr]))` loop of `traversify`,
pairing the i-th domain value with the i-th child.  (If the node had fewer
children than domain values Python would raise `IndexError`; the zip simply
stops, and `generate` never produces such a node.) -/
def travZip (cfg : Config) : List String → List Tree → List (String × Trav)
  | _, [] => []
  | [], _ => []
  | d :: ds, c :: cs => (d, traversify cfg c) :: travZip cfg ds cs

end

/-- `getattr(example, feature)` on the namedtuple: the field named `feature`
is the attribute value at `feature`'s position in the declared attribute
list. -/
def getattrEx (cfg : Config) (ex : Ex) (feature : String) : String :=
  ex.values.getD (cfg.attrs.indexOf feature) ""

mutual

/-- `use_classifier(subtree, example)` of `classify` (src/decisiontree.py
lines 205-221): a `{None: label}` subtree immediately returns its label; on a
dict node, read the example's value for the node's attribute and look it up. -/
def use_classifier (cfg : Config) : Trav → Ex → Except String String
  | Trav.const l, _ => Except.ok l
  | Trav.lab _, _ => Except.error "TypeError"
  | Trav.tnode attrName entries, ex =>
    useLookup cfg entries (getattrEx cfg ex attrName) ex

/-- Dict lookup `subtree[vk]` (`KeyError` when the value is not a key)
followed by `use_classifier`'s `in self.classes` test: a looked-up raw label
in `self.classes` is returned, anything else recurses — recursing into a raw
label not in `self.classes` crashes Python with a `TypeError` (the `None in
subtree` membership test on a string).  The dict was built by inserting the
domain values in order, so a duplicate key keeps its last inserted value:
an entry only wins when no later entry shares its key. -/
def useLookup (cfg : Config) : List (String × Trav) → String → Ex → Except String String
  | [], _, _ => Except.error "KeyError"
  | (k, t) :: rest, vk, ex =>
    if rest.any (fun q => q.1 == vk) then useLookup cfg rest vk ex
    else if k == vk then
      match t with
      | Trav.lab l =>
        if cfg.classes.contains l then Except.ok l else Except.error "TypeError"
      | Trav.const l => use_classifier cfg (Trav.const l) ex
      | Trav.tnode n es => use_classifier cfg (Trav.tnode n es) ex
    else useLookup cfg rest vk ex

end

/-- `classify` on a single (non-list) example: build the traversal structure
once, then run `use_classifier`. -/
def classifyOne (cfg : Config) (tree : Tree) (ex : Ex) : Except String String :=
  use_classifier cfg (traversify cfg tree) ex

/-- `classify` on a list of examples: the same traversal structure evaluated
against each example in order. -/
def classifyMany (cfg : Config) (tree : Tree) (exs : List Ex) : List (Except String String) :=
  exs.map (fun ex => use_classifier cfg (traversify cfg tree) ex)

mutual

/-- Every internal node of the tree has exactly as many children as its
splitting attribute has domain values. -/
def ChildrenArity (cfg : Config) : Tree → Prop
  | Tree.node A cs => cs.length = (cfg.domain A).length ∧ ChildrenArityL cfg cs
  | Tree.leaf _ => True
  | Tree.degen _ => True

/-- `ChildrenArity` for every tree of a list. -/
def ChildrenArityL (cfg : Config) : List Tree → Prop
  | [] => True
  | c :: cs => ChildrenArity cfg c ∧ ChildrenArityL cfg cs

end

mutual

/-- Along every root-to-leaf path of the tree, the name of each splitting
attribute is fresh: not in the ambient used list, and not equal to a
splitting attribute higher up on the path (each node extends the used list
exactly as the builder does). -/
def NoRepeat (cfg : Config) : List String → Tree → Prop
  | _, Tree.leaf _ => True
  | _, Tree.degen _ => True
  | used, Tree.node A cs =>
    cfg.attrs.getD A "" ∉ used ∧ A < cfg.attrs.length ∧
      NoRepeatL cfg (used ++ [cfg.attrs.getD A ""]) cs

/-- `NoRepeat` for every tree of a list. -/
def NoRepeatL (cfg : Config) : List String → List Tree → Prop
  | _, [] => True
  | used, c :: cs => NoRepeat cfg used c ∧ NoRepeatL cfg used cs

end

mutual

/-- All root-to-leaf sequences of splitting-attribute indices of a tree. -/
def pathAttrs : Tree → List (List ℕ)
  | Tree.leaf _ => [[]]
  | Tree.degen _ => [[]]
  | Tree.node A cs => (pathAttrsL cs).map (fun p => A :: p)

/-- Concatenation of the paths of a list of trees. -/
def pathAttrsL : List Tree → List (List ℕ)
  | [] => []
  | c :: cs => pathAttrs c ++ pathAttrsL cs

end

/-- A one-attribute configuration (attribute `a1` with domain `{T, F}`,
classes `B` and `A`, positive class `A`), used to instantiate theorems. -/
def cfgOne : Config :=
  { attrs := ["a1"]
    attrValues := fun _ => ["T", "F"]
    classes := ["B", "A"]
    classifier := fun dp => dp.classification == "A" }

/-- A two-boolean-attribute configuration matching the demo driver's shape. -/
def cfgTwo : Config :=
  { attrs := ["a1", "a2"]
    attrValues := fun _ => ["T", "F"]
    classes := ["B", "A"]
    classifier := fun dp => dp.classification == "A" }

/-- A single uniformly-classified example for `cfgOne`. -/
def exsPure : List Ex :=
  [{ values := ["T"], classification := "A" }]

/-- The spec's gain-selection example set
`{(T,T,A), (T,F,B), (F,T,B), (F,F,B)}` over two boolean attributes. -/
def exsSpec : List Ex :=
  [{ values := ["T", "T"], classification := "A" },
   { values := ["T", "F"], classification := "B" },
   { values := ["F", "T"], classification := "B" },
   { values := ["F", "F"], classification := "B" }]

/-! ### Helper lemmas -/

theorem H_of_pos {probs : List ℝ} (h : ∀ vk ∈ probs, 0 < vk) :
    H probs = -((probs.map (fun vk => Real.logb 2 vk * vk)).sum) := by
  rw [H, if_pos h]

theorem H_of_nonpos {probs : List ℝ} (h : ∃ vk ∈ probs, vk ≤ 0) :
    H probs = 0 := by
  obtain ⟨vk, hmem, hvk⟩ := h
  rw [H, if_neg]
  intro hall
  exact absurd (hall vk hmem) (not_lt.mpr hvk)

theorem B_zero : B 0 = 0 :=
  H_of_nonpos ⟨0, by simp, le_refl 0⟩

theorem B_one : B 1 = 0 :=
  H_of_nonpos ⟨1 - 1, by simp, by norm_num⟩

/-- On the open unit interval, `B` is the binary entropy in bits. -/
theorem B_eq_binEntropy {q : ℝ} (h0 : 0 < q) (h1 : q < 1) :
    B q = Real.binEntropy q / Real.log 2 := by
  rw [B, H_of_pos]
  · simp only [List.map_cons, List.map_nil, List.sum_cons, List.sum_nil, add_zero]
    rw [Real.binEntropy, Real.log_inv, Real.log_inv, Real.logb, Real.logb]
    field_simp
    ring
  · intro vk hvk
    simp only [List.mem_cons, List.not_mem_nil, or_false] at hvk
    rcases hvk with rfl | rfl
    · exact h0
    · linarith

theorem B_nonneg (q : ℝ) : 0 ≤ B q := by
  by_cases h0 : 0 < q
  · by_cases h1 : q < 1
    · rw [B_eq_binEntropy h0 h1]
      exact div_nonneg (Real.binEntropy_nonneg h0.le h1.le) (Real.log_nonneg (by norm_num))
    · exact le_of_eq (H_of_nonpos ⟨1 - q, by simp, by linarith⟩).symm
  · exact le_of_eq (H_of_nonpos ⟨q, by simp, not_lt.mp h0⟩).symm

theorem B_le_one (q : ℝ) : B q ≤ 1 := by
  by_cases h0 : 0 < q
  · by_cases h1 : q < 1
    · rw [B_eq_binEntropy h0 h1]
      rw [div_le_one (Real.log_pos (by norm_num))]
      exact Real.binEntropy_le_log_two
    · exact le_trans (le_of_eq (H_of_nonpos ⟨1 - q, by simp, by linarith⟩)) zero_le_one
  · exact le_trans (le_of_eq (H_of_nonpos ⟨q, by simp, not_lt.mp h0⟩)) zero_le_one

theorem B_pos {q : ℝ} (h0 : 0 < q) (h1 : q < 1) : 0 < B q := by
  rw [B_eq_binEntropy h0 h1]
  exact div_pos (Real.binEntropy_pos h0 h1) (Real.log_pos (by norm_num))

theorem isEmpty_false_of_ne_nil {α : Type} {l : List α} (h : l ≠ []) :
    l.isEmpty = false := by
  cases l with
  | nil => exact absurd rfl h
  | cons a as => rfl

theorem fully_classified_of_uniform {examples : List Ex} {c : String}
    {classes : List String} (hne : examples ≠ [])
    (hall : ∀ x ∈ examples, x.classification = c) (hc : c ∈ classes) :
    fully_classified examples classes = true := by
  rw [fully_classified, List.any_eq_true]
  refine ⟨c, hc, ?_⟩
  rw [decide_eq_true_eq, plurality_value]
  have hcount : examples.countP (fun x => x.classification == c) = examples.length := by
    rw [List.countP_eq_length]
    intro a ha
    simp [hall a ha]
  have hlen : (examples.length : ℚ) ≠ 0 := by
    have : examples.length ≠ 0 := fun h0 => hne (List.length_eq_zero.mp h0)
    exact_mod_cast this
  rw [hcount]
  exact div_self hlen

/-! Branch-unfolding lemmas for the inner recursion. -/

theorem _generate_pure {cfg : Config} {examples : List Ex} (fuel : ℕ) (depth : ℤ)
    (parent : List Ex) (used : List String)
    (hne : examples ≠ []) (hfc : fully_classified examples cfg.classes = true) :
    _generate cfg (fuel + 1) depth examples parent used =
      some (Tree.leaf (examples.headD default).classification) := by
  rw [_generate]
  rw [if_neg (by simp [isEmpty_false_of_ne_nil hne]), if_pos hfc]

theorem _generate_split {cfg : Config} {fuel : ℕ} {depth : ℤ}
    {examples parent : List Ex} {used : List String}
    (hne : examples ≠ [])
    (hfc : fully_classified examples cfg.classes = false)
    (hav : cfg.attrs.all (fun s => used.contains s) = false) :
    _generate cfg (fuel + 1) depth examples parent used =
      (match loopNew
          (fun exs => _generate cfg fuel (depth - 1) exs examples
            (used ++ [cfg.attrs.getD (idxOfMax (gainsList cfg examples parent used)) ""]))
          (fun vk => examples.filter
            (fun dp => dpGet dp (idxOfMax (gainsList cfg examples parent used)) == vk))
          (decide (depth = 0))
          (Tree.leaf (plurality examples cfg.classes))
          (cfg.domain (idxOfMax (gainsList cfg examples parent used))) with
       | none => none
       | some cs => some (Tree.node (idxOfMax (gainsList cfg examples parent used)) cs)) := by
  rw [_generate]
  rw [if_neg (by rw [isEmpty_false_of_ne_nil hne]; simp), if_neg (by rw [hfc]; simp),
    if_neg (by rw [hav]; simp)]
  rfl

theorem loopNew_isZero (recur : List Ex → Option Tree) (filt : String → List Ex)
    (plur : Tree) : ∀ V : List String,
    loopNew recur filt true plur V = some (List.replicate V.length plur) := by
  intro V
  induction V with
  | nil => rfl
  | cons vk rest ih => rw [loopNew, if_pos rfl, ih, List.length_cons, List.replicate_succ]

theorem loopNew_length {recur : List Ex → Option Tree} {filt : String → List Ex}
    {isZero : Bool} {plur : Tree} :
    ∀ {V : List String} {cs : List Tree},
      loopNew recur filt isZero plur V = some cs → cs.length = V.length := by
  intro V
  induction V with
  | nil => intro cs h; rw [loopNew] at h; cases h; rfl
  | cons vk rest ih =>
    intro cs h
    rw [loopNew] at h
    cases isZero with
    | true =>
      rw [if_pos rfl] at h
      cases hrec : loopNew recur filt true plur rest with
      | none => rw [hrec] at h; cases h
      | some cs' =>
        rw [hrec] at h
        cases h
        simp [ih hrec]
    | false =>
      rw [if_neg (by simp)] at h
      cases hc : recur (filt vk) with
      | none => rw [hc] at h; cases h
      | some c =>
        rw [hc] at h
        cases hrec : loopNew recur filt false plur rest with
        | none => rw [hrec] at h; cases h
        | some cs' =>
          rw [hrec] at h
          cases h
          simp [ih hrec]

theorem loopNew_mem {recur : List Ex → Option Tree} {filt : String → List Ex}
    {isZero : Bool} {plur : Tree} :
    ∀ {V : List String} {cs : List Tree},
      loopNew recur filt isZero plur V = some cs →
      ∀ c ∈ cs, c = plur ∨ ∃ vk ∈ V, recur (filt vk) = some c := by
  intro V
  induction V with
  | nil => intro cs h c hc; rw [loopNew] at h; cases h; simp at hc
  | cons vk rest ih =>
    intro cs h c hc
    rw [loopNew] at h
    cases isZero with
    | true =>
      rw [if_pos rfl] at h
      cases hrec : loopNew recur filt true plur rest with
      | none => rw [hrec] at h; cases h
      | some cs' =>
        rw [hrec] at h
        cases h
        rcases List.mem_cons.mp hc with rfl | hc'
        · exact Or.inl rfl
        · rcases ih hrec c hc' with h' | ⟨vk', hvk', h'⟩
          · exact Or.inl h'
          · exact Or.inr ⟨vk', List.mem_cons_of_mem _ hvk', h'⟩
    | false =>
      rw [if_neg (by simp)] at h
      cases hcall : recur (filt vk) with
      | none => rw [hcall] at h; cases h
      | some c0 =>
        rw [hcall] at h
        cases hrec : loopNew recur filt false plur rest with
        | none => rw [hrec] at h; cases h
        | some cs' =>
          rw [hrec] at h
          cases h
          rcases List.mem_cons.mp hc with rfl | hc'
          · exact Or.inr ⟨vk, List.mem_cons_self _ _, hcall⟩
          · rcases ih hrec c hc' with h' | ⟨vk', hvk', h'⟩
            · exact Or.inl h'
            · exact Or.inr ⟨vk', List.mem_cons_of_mem _ hvk', h'⟩

theorem loopNew_getD {recur : List Ex → Option Tree} {filt : String → List Ex}
    {isZero : Bool} {plur : Tree} :
    ∀ {V : List String} {cs : List Tree},
      loopNew recur filt isZero plur V = some cs →
      ∀ i, i < V.length →
        (isZero = true → cs.getD i default = plur) ∧
        (isZero = false → recur (filt (V.getD i "")) = some (cs.getD i default)) := by
  intro V
  induction V with
  | nil => intro cs h i hi; simp at hi
  | cons vk rest ih =>
    intro cs h i hi
    rw [loopNew] at h
    cases isZero with
    | true =>
      rw [if_pos rfl] at h
      cases hrec : loopNew recur filt true plur rest with
      | none => rw [hrec] at h; cases h
      | some cs' =>
        rw [hrec] at h
        cases h
        refine ⟨fun _ => ?_, fun hf => Bool.noConfusion hf⟩
        cases i with
        | zero => rfl
        | succ j =>
          have := (ih hrec j (by simpa using hi)).1 rfl
          simpa using this
    | false =>
      rw [if_neg (by simp)] at h
      cases hcall : recur (filt vk) with
      | none => rw [hcall] at h; cases h
      | some c0 =>
        rw [hcall] at h
        cases hrec : loopNew recur filt false plur rest with
        | none => rw [hrec] at h; cases h
        | some cs' =>
          rw [hrec] at h
          cases h
          refine ⟨fun ht => Bool.noConfusion ht, fun _ => ?_⟩
          cases i with
          | zero => simpa using hcall
          | succ j =>
            have := (ih hrec j (by simpa using hi)).2 rfl
            simpa using this

/-! Lemmas about the argmax selection: Python's `gain.index(max(gain))`. -/

theorem le_pyMaxR : ∀ (l : List ℝ), ∀ y ∈ l, y ≤ pyMaxR l := by
  intro l
  induction l with
  | nil => intro y hy; simp at hy
  | cons x rest ih =>
    intro y hy
    rcases List.mem_cons.mp hy with rfl | hy'
    · cases rest with
      | nil => rw [pyMaxR]
      | cons z zs => rw [pyMaxR]; exact le_max_left _ _
    · cases rest with
      | nil => simp at hy'
      | cons z zs => rw [pyMaxR]; exact le_trans (ih y hy') (le_max_right _ _)

theorem pyMaxR_cons_of_ne {x : ℝ} {rest : List ℝ} (hrest : rest ≠ [])
    (hx : x ≠ pyMaxR (x :: rest)) : pyMaxR (x :: rest) = pyMaxR rest := by
  cases rest with
  | nil => exact absurd rfl hrest
  | cons z zs =>
    rw [pyMaxR]
    rcases max_choice x (pyMaxR (z :: zs)) with h | h
    · exact absurd (by rw [pyMaxR, h]) hx
    · exact h

theorem idxOfMax_lt_length : ∀ (l : List ℝ), l ≠ [] → idxOfMax l < l.length := by
  intro l
  induction l with
  | nil => intro h; exact absurd rfl h
  | cons x rest ih =>
    intro _
    rw [idxOfMax]
    by_cases hx : x = pyMaxR (x :: rest)
    · rw [if_pos hx]; simp
    · rw [if_neg hx]
      have hrest : rest ≠ [] := by
        intro hr
        subst hr
        exact hx (by rw [pyMaxR])
      have := ih hrest
      simp only [List.length_cons]
      omega

theorem getD_idxOfMax : ∀ (l : List ℝ), l ≠ [] → l.getD (idxOfMax l) 0 = pyMaxR l := by
  intro l
  induction l with
  | nil => intro h; exact absurd rfl h
  | cons x rest ih =>
    intro _
    rw [idxOfMax]
    by_cases hx : x = pyMaxR (x :: rest)
    · rw [if_pos hx]; exact hx
    · rw [if_neg hx]
      have hrest : rest ≠ [] := by
        intro hr
        subst hr
        exact hx (by rw [pyMaxR])
      have hgd : (x :: rest).getD (idxOfMax rest + 1) 0 = rest.getD (idxOfMax rest) 0 := rfl
      rw [hgd, ih hrest, pyMaxR_cons_of_ne hrest hx]

theorem getD_lt_idxOfMax_ne : ∀ (l : List ℝ) (j : ℕ), j < idxOfMax l →
    l.getD j 0 ≠ pyMaxR l := by
  intro l
  induction l with
  | nil => intro j hj; rw [idxOfMax] at hj; omega
  | cons x rest ih =>
    intro j hj
    rw [idxOfMax] at hj
    by_cases hx : x = pyMaxR (x :: rest)
    · rw [if_pos hx] at hj; omega
    · rw [if_neg hx] at hj
      have hrest : rest ≠ [] := by
        intro hr
        subst hr
        exact hx (by rw [pyMaxR])
      cases j with
      | zero => exact hx
      | succ j' =>
        have hj' : j' < idxOfMax rest := by omega
        have : (x :: rest).getD (j' + 1) 0 = rest.getD j' 0 := rfl
        rw [this, pyMaxR_cons_of_ne hrest hx]
        exact ih j' hj'

theorem getD_map_range {β : Type} [Inhabited β] (f : ℕ → β) (len j : ℕ) (d : β)
    (hj : j < len) : ((List.range len).map f).getD j d = f j := by
  rw [List.getD_eq_getElem _ _ (by simpa using hj)]
  rw [List.getElem_map, List.getElem_range]

/-! ### C6: entropy and zero weights -/

/-- C6, counterexample.  The claim says a weight of exactly `0` contributes
`0` while all nonzero terms still contribute, which would give
`H(0, 1/2) = 1/2`; the code's `except ValueError: return 0` aborts the whole
sum, so `H(0, 1/2) = 0`. -/
theorem C6_counterexample :
    H [0, 1 / 2] = 0 ∧ H_dropZeros [0, 1 / 2] = 1 / 2 ∧
      H [0, 1 / 2] ≠ H_dropZeros [0, 1 / 2] := by
  have hlog : Real.logb 2 ((1 : ℝ) / 2) = -1 := by
    rw [one_div, Real.logb_inv, Real.logb_self_eq_one (by norm_num)]
  have hH : H [0, 1 / 2] = 0 := H_of_nonpos ⟨0, by simp, le_refl 0⟩
  have hD : H_dropZeros [0, 1 / 2] = 1 / 2 := by
    rw [H_dropZeros]
    norm_num [hlog]
  exact ⟨hH, hD, by rw [hH, hD]; norm_num⟩

/-- C6, amended: `entropy` returns `-Σ pi·log2(pi)` when every weight is
strictly positive; as soon as any weight is `0` (or negative) the whole call
returns `0` — every term is dropped, not only the zero-valued ones. -/
theorem C6_entropy_zero_weights (probs : List ℝ) :
    ((∀ q ∈ probs, 0 < q) → H probs = -((probs.map (fun q => Real.logb 2 q * q)).sum)) ∧
    ((∃ q ∈ probs, q ≤ 0) → H probs = 0) :=
  ⟨H_of_pos, H_of_nonpos⟩

/-- C6, witness: both hypotheses discharged on concrete weight lists. -/
theorem C6_entropy_zero_weights_witness :
    H [1 / 2, 1 / 2] = -((([(1 : ℝ) / 2, 1 / 2]).map (fun q => Real.logb 2 q * q)).sum) ∧
      H [(0 : ℝ)] = 0 :=
  ⟨(C6_entropy_zero_weights [1 / 2, 1 / 2]).1 (by intro q hq; simp at hq; rcases hq with rfl | rfl; norm_num),
   (C6_entropy_zero_weights [(0 : ℝ)]).2 ⟨0, by simp, le_refl 0⟩⟩

/-! ### C7: remainder and empty partitions -/

/-- C7: in `Remainder`, a domain value whose partition is empty contributes
exactly `0` (the division by zero is swallowed by the `except
ZeroDivisionError`), and every non-empty partition contributes
`((pk+nk)/(p+n)) * B(pk/(pk+nk))` with `(pk, nk) = pos_neg` of the
partition. -/
theorem C7_remainder_empty_partitions (examples : List Ex) (A : ℕ) (V : List String)
    (p n : ℕ) (f : Ex → Bool) :
    Remainder examples A V p n f =
      (V.map (fun d =>
        if (examples.filter (fun dp => dpGet dp A == d)).isEmpty then (0 : ℝ)
        else
          (((examples.filter (fun dp => dpGet dp A == d)).countP f : ℝ) +
              (((examples.filter (fun dp => dpGet dp A == d)).length -
                (examples.filter (fun dp => dpGet dp A == d)).countP f : ℕ) : ℝ)) /
            ((p : ℝ) + (n : ℝ)) *
            B (((examples.filter (fun dp => dpGet dp A == d)).countP f : ℝ) /
              (((examples.filter (fun dp => dpGet dp A == d)).countP f : ℝ) +
                (((examples.filter (fun dp => dpGet dp A == d)).length -
                  (examples.filter (fun dp => dpGet dp A == d)).countP f : ℕ) : ℝ))))).sum := by
  rw [Remainder]
  apply congrArg List.sum
  apply List.map_congr_left
  intro d _
  dsimp only
  generalize examples.filter (fun dp => dpGet dp A == d) = Ek
  cases Ek with
  | nil => simp
  | cons x xs =>
    have hcount : (x :: xs).countP f ≤ (x :: xs).length := List.countP_le_length f
    have hlen : (x :: xs).length = xs.length + 1 := by simp
    have hiso : ¬((x :: xs).isEmpty = true) := by simp
    by_cases hpn : p + n = 0
    · rw [if_pos (Or.inr hpn), if_neg hiso]
      have hp : p = 0 := by omega
      have hn : n = 0 := by omega
      subst hp; subst hn
      norm_num
    · rw [if_neg (by push_neg; exact ⟨by omega, hpn⟩), if_neg hiso]

/-! ### C8: classification of a degenerate leaf -/

/-- C8: classifying any example against a tree that is the Degenerate Leaf
marker `(None, label)` returns that label immediately, without reading any
attribute value of the example (the result is the same for every example,
single or in bulk). -/
theorem C8_degenerate_leaf_classify (cfg : Config) (l : String) :
    (∀ ex : Ex, classifyOne cfg (Tree.degen l) ex = Except.ok l) ∧
    (∀ exs : List Ex,
      classifyMany cfg (Tree.degen l) exs = List.replicate exs.length (Except.ok l)) := by
  have h1 : ∀ ex : Ex, classifyOne cfg (Tree.degen l) ex = Except.ok l := by
    intro ex
    rw [classifyOne, traversify, use_classifier]
  refine ⟨h1, ?_⟩
  intro exs
  induction exs with
  | nil => rfl
  | cons x xs ih =>
    rw [classifyMany] at ih ⊢
    rw [List.map_cons, ih, List.length_cons, List.replicate_succ, traversify, use_classifier]

/-! ### C9: training on zero examples -/

/-- C9: on an empty example list the first branch of `_generate` immediately
evaluates `plurality(parent_examples=[], classes)`, and that call's faithful
exception-aware evaluation raises `ZeroDivisionError` (from `total /
len(examples)` in `plurality_value`), not a descriptive "no data" error. -/
theorem C9_empty_training_set (cfg : Config) (depth : ℤ) (avoid : List String)
    (hcls : cfg.classes ≠ []) :
    (∀ fuel : ℕ, _generate cfg (fuel + 1) depth [] [] avoid
        = some (Tree.leaf (plurality [] cfg.classes))) ∧
    pluralityE [] cfg.classes = Except.error "ZeroDivisionError" := by
  constructor
  · intro fuel
    rw [_generate]
    simp
  · obtain ⟨c, cs, hc⟩ := List.exists_cons_of_ne_nil hcls
    rw [hc, pluralityE]
    simp

/-- C9, witness: the demo driver's class list, empty training set. -/
theorem C9_empty_training_set_witness :
    (∀ fuel : ℕ, _generate cfgOne (fuel + 1) (-1) [] [] []
        = some (Tree.leaf (plurality [] cfgOne.classes))) ∧
    pluralityE [] cfgOne.classes = Except.error "ZeroDivisionError" :=
  C9_empty_training_set cfgOne (-1) [] (by simp [cfgOne])

/-! ### C2: purity termination -/

theorem generate_uniform {cfg : Config} {examples : List Ex} {c : String}
    (depth : ℤ) (avoid : List String) (hne : examples ≠ [])
    (hall : ∀ x ∈ examples, x.classification = c) (hc : c ∈ cfg.classes) :
    generate cfg examples depth avoid = some (Tree.degen c) := by
  have hfc := fully_classified_of_uniform hne hall hc
  have hhead : (examples.headD default).classification = c := by
    cases examples with
    | nil => exact absurd rfl hne
    | cons e es => exact hall e (List.mem_cons_self e es)
  rw [generate, _generate_pure cfg.attrs.length depth examples avoid hne hfc, hhead]

/-- C2: on a non-empty example set whose examples all carry the same declared
classification, `generate` returns that classification wrapped as the
Degenerate Leaf, whatever the depth budget and whatever attributes are already
used. -/
theorem C2_purity_termination (cfg : Config) (examples : List Ex) (c : String)
    (depth : ℤ) (avoid : List String) (hne : examples ≠ [])
    (hall : ∀ x ∈ examples, x.classification = c) (hc : c ∈ cfg.classes) :
    generate cfg examples depth avoid = some (Tree.degen c) :=
  generate_uniform depth avoid hne hall hc

/-- C2, witness. -/
theorem C2_purity_termination_witness :
    generate cfgOne exsPure (-1) [] = some (Tree.degen "A") :=
  C2_purity_termination cfgOne exsPure "A" (-1) []
    (by simp [exsPure])
    (by intro x hx; simp only [exsPure, List.mem_singleton] at hx; subst hx; rfl)
    (by simp [cfgOne])

/-! ### C5: depth-zero behavior -/

theorem _generate_depth_zero {cfg : Config} {examples parent : List Ex}
    {used : List String} (fuel : ℕ) (hne : examples ≠ [])
    (hfc : fully_classified examples cfg.classes = false)
    (hav : cfg.attrs.all (fun s => used.contains s) = false) :
    _generate cfg (fuel + 1) 0 examples parent used =
      some (Tree.node (idxOfMax (gainsList cfg examples parent used))
        (List.replicate (cfg.domain (idxOfMax (gainsList cfg examples parent used))).length
          (Tree.leaf (plurality examples cfg.classes)))) := by
  rw [_generate_split hne hfc hav]
  rw [show (decide ((0 : ℤ) = 0)) = true from rfl]
  rw [loopNew_isZero]

theorem gainsList_length (cfg : Config) (examples parent : List Ex)
    (used : List String) :
    (gainsList cfg examples parent used).length = cfg.attrs.length := by
  rw [gainsList, List.length_map, List.length_range]

/-- C5: with `maxDepth = 0` on a non-empty, non-pure example set with at
least one attribute available, `generate` still returns an Internal Node
performing one split, all of whose children are the Leaf carrying the
plurality label of the full example set — no recursively built subtrees. -/
theorem C5_depth_zero (cfg : Config) (examples : List Ex) (hne : examples ≠ [])
    (hfc : fully_classified examples cfg.classes = false)
    (hattrs : cfg.attrs ≠ []) :
    ∃ A, A < cfg.attrs.length ∧
      generate cfg examples 0 [] =
        some (Tree.node A (List.replicate (cfg.domain A).length
          (Tree.leaf (plurality examples cfg.classes)))) := by
  have hav : cfg.attrs.all (fun s => List.contains [] s) = false := by
    obtain ⟨a, ha⟩ := List.exists_mem_of_ne_nil _ hattrs
    exact List.all_eq_false.mpr ⟨a, ha, by simp [List.contains]⟩
  refine ⟨idxOfMax (gainsList cfg examples examples []), ?_, ?_⟩
  · have hlen := gainsList_length cfg examples examples []
    have hnil : gainsList cfg examples examples [] ≠ [] := by
      intro h0
      rw [h0] at hlen
      exact hattrs (List.length_eq_zero.mp hlen.symm)
    have := idxOfMax_lt_length _ hnil
    omega
  · rw [generate, _generate_depth_zero cfg.attrs.length hne hfc hav]

/-- C5, witness: the spec's four-example set over two boolean attributes. -/
theorem C5_depth_zero_witness :
    ∃ A, A < cfgTwo.attrs.length ∧
      generate cfgTwo exsSpec 0 [] =
        some (Tree.node A (List.replicate (cfgTwo.domain A).length
          (Tree.leaf (plurality exsSpec cfgTwo.classes)))) :=
  C5_depth_zero cfgTwo exsSpec (by simp [exsSpec])
    (by
      rw [fully_classified]
      simp only [cfgTwo, exsSpec, List.any_eq_false, decide_eq_true_eq]
      intro c hc
      rcases List.mem_cons.mp hc with rfl | hc'
      · rw [plurality_value]
        simp only [List.countP_cons, List.countP_nil, beq_iff_eq,
          if_neg (show ¬("A" : String) = "B" by decide)]
        norm_num
      · rcases List.mem_cons.mp hc' with rfl | hc''
        · rw [plurality_value]
          simp only [List.countP_cons, List.countP_nil, beq_iff_eq,
            if_neg (show ¬("B" : String) = "A" by decide)]
          norm_num
        · simp at hc'')
    (by simp [cfgTwo])

/-! ### C4: child-count and child-order invariant -/

theorem _generate_no_attrs {cfg : Config} {examples parent : List Ex}
    {used : List String} (fuel : ℕ) (depth : ℤ) (hne : examples ≠ [])
    (hfc : fully_classified examples cfg.classes = false)
    (hav : cfg.attrs.all (fun s => used.contains s) = true) :
    _generate cfg (fuel + 1) depth examples parent used =
      some (Tree.leaf (plurality examples cfg.classes)) := by
  rw [_generate]
  rw [if_neg (by rw [isEmpty_false_of_ne_nil hne]; simp), if_neg (by rw [hfc]; simp),
    if_pos hav]

theorem ChildrenArityL_iff (cfg : Config) : ∀ (cs : List Tree),
    ChildrenArityL cfg cs ↔ ∀ c ∈ cs, ChildrenArity cfg c := by
  intro cs
  induction cs with
  | nil => simp [ChildrenArityL]
  | cons c cs' ih =>
    rw [ChildrenArityL, ih]
    constructor
    · rintro ⟨h1, h2⟩ x hx
      rcases List.mem_cons.mp hx with rfl | hx'
      · exact h1
      · exact h2 x hx'
    · intro hx
      exact ⟨hx c (List.mem_cons_self _ _), fun x hx' => hx x (List.mem_cons_of_mem _ hx')⟩

theorem _generate_arity (cfg : Config) :
    ∀ (fuel : ℕ) (depth : ℤ) (examples parent : List Ex) (used : List String) (t : Tree),
      _generate cfg fuel depth examples parent used = some t →
      ChildrenArity cfg t := by
  intro fuel
  induction fuel with
  | zero =>
    intro depth examples parent used t h
    rw [_generate] at h
    cases h
  | succ fuel' ih =>
    intro depth examples parent used t h
    by_cases hne : examples = []
    · subst hne
      rw [_generate, if_pos (by rfl)] at h
      cases h
      rw [ChildrenArity]
      trivial
    · by_cases hfc : fully_classified examples cfg.classes = true
      · rw [_generate_pure fuel' depth parent used hne hfc] at h
        cases h
        rw [ChildrenArity]
        trivial
      · simp only [Bool.not_eq_true] at hfc
        by_cases hav : cfg.attrs.all (fun s => used.contains s) = true
        · rw [_generate_no_attrs fuel' depth hne hfc hav] at h
          cases h
          rw [ChildrenArity]
          trivial
        · simp only [Bool.not_eq_true] at hav
          rw [_generate_split hne hfc hav] at h
          cases hloop : loopNew
              (fun exs => _generate cfg fuel' (depth - 1) exs examples
                (used ++ [cfg.attrs.getD (idxOfMax (gainsList cfg examples parent used)) ""]))
              (fun vk => examples.filter
                (fun dp => dpGet dp (idxOfMax (gainsList cfg examples parent used)) == vk))
              (decide (depth = 0))
              (Tree.leaf (plurality examples cfg.classes))
              (cfg.domain (idxOfMax (gainsList cfg examples parent used))) with
          | none => rw [hloop] at h; cases h
          | some cs =>
            rw [hloop] at h
            cases h
            rw [ChildrenArity]
            refine ⟨loopNew_length hloop, (ChildrenArityL_iff cfg cs).mpr ?_⟩
            intro c hc
            rcases loopNew_mem hloop c hc with rfl | ⟨vk, _, hcall⟩
            · rw [ChildrenArity]
              trivial
            · exact ih (depth - 1) _ examples _ c hcall

/-- C4: every internal node of a tree produced by the builder has exactly
`|domain(attribute)|` children (the tuple has `|domain|+1` slots: the
attribute index first); moreover, at the node built by this call the child in
position `i` is exactly the subtree built for the `i`-th value of the
attribute's declared domain (the plurality leaf at depth 0, the recursive
result on the matching partition otherwise). -/
theorem C4_child_count (cfg : Config) (fuel : ℕ) (depth : ℤ)
    (examples parent : List Ex) (used : List String) (t : Tree)
    (h : _generate cfg (fuel + 1) depth examples parent used = some t) :
    ChildrenArity cfg t ∧
    (∀ A cs, t = Tree.node A cs →
      cs.length = (cfg.domain A).length ∧
      ∀ i, i < (cfg.domain A).length →
        (depth = 0 → cs.getD i default = Tree.leaf (plurality examples cfg.classes)) ∧
        (depth ≠ 0 →
          _generate cfg fuel (depth - 1)
              (examples.filter (fun dp => dpGet dp A == (cfg.domain A).getD i ""))
              examples (used ++ [cfg.attrs.getD A ""])
            = some (cs.getD i default))) := by
  refine ⟨_generate_arity cfg (fuel + 1) depth examples parent used t h, ?_⟩
  intro A cs hts
  subst hts
  by_cases hne : examples = []
  · subst hne
    rw [_generate, if_pos (by rfl)] at h
    simp at h
  · by_cases hfc : fully_classified examples cfg.classes = true
    · rw [_generate_pure fuel depth parent used hne hfc] at h
      simp at h
    · simp only [Bool.not_eq_true] at hfc
      by_cases hav : cfg.attrs.all (fun s => used.contains s) = true
      · rw [_generate_no_attrs fuel depth hne hfc hav] at h
        simp at h
      · simp only [Bool.not_eq_true] at hav
        rw [_generate_split hne hfc hav] at h
        cases hloop : loopNew
            (fun exs => _generate cfg fuel (depth - 1) exs examples
              (used ++ [cfg.attrs.getD (idxOfMax (gainsList cfg examples parent used)) ""]))
            (fun vk => examples.filter
              (fun dp => dpGet dp (idxOfMax (gainsList cfg examples parent used)) == vk))
            (decide (depth = 0))
            (Tree.leaf (plurality examples cfg.classes))
            (cfg.domain (idxOfMax (gainsList cfg examples parent used))) with
        | none => rw [hloop] at h; cases h
        | some cs' =>
          rw [hloop] at h
          rw [Option.some.injEq, Tree.node.injEq] at h
          obtain ⟨hA, hcs⟩ := h
          subst hA
          subst hcs
          refine ⟨loopNew_length hloop, ?_⟩
          intro i hi
          have hspec := loopNew_getD hloop i hi
          constructor
          · intro hd
            subst hd
            exact hspec.1 rfl
          · intro hd
            have := hspec.2 (decide_eq_false hd)
            exact this

/-- C4, witness. -/
theorem C4_child_count_witness :
    ChildrenArity cfgOne (Tree.leaf "A") ∧
    (∀ A cs, Tree.leaf "A" = Tree.node A cs →
      cs.length = (cfgOne.domain A).length ∧
      ∀ i, i < (cfgOne.domain A).length →
        ((-1 : ℤ) = 0 → cs.getD i default = Tree.leaf (plurality exsPure cfgOne.classes)) ∧
        ((-1 : ℤ) ≠ 0 →
          _generate cfgOne 1 ((-1) - 1)
              (exsPure.filter (fun dp => dpGet dp A == (cfgOne.domain A).getD i ""))
              exsPure ([] ++ [cfgOne.attrs.getD A ""])
            = some (cs.getD i default))) :=
  C4_child_count cfgOne 1 (-1) exsPure exsPure [] (Tree.leaf "A")
    (by
      rw [_generate_pure 1 (-1) exsPure [] (by simp [exsPure])
        (fully_classified_of_uniform (by simp [exsPure])
          (by intro x hx; simp only [exsPure, List.mem_singleton] at hx; subst hx; rfl)
          (by simp [cfgOne]))]
      rfl)

/-! ### C1: gain-based attribute selection -/

theorem contains_iff_mem {l : List String} {s : String} :
    l.contains s = true ↔ s ∈ l :=
  List.elem_iff

theorem gainsList_getD_eq_selGain (cfg : Config) (examples parent : List Ex)
    (used : List String) {j : ℕ} (hj : j < cfg.attrs.length) :
    (gainsList cfg examples parent used).getD j 0 =
      selGain cfg examples parent used j := by
  rw [gainsList, getD_map_range _ _ _ _ hj, selGain]
  by_cases hm : cfg.attrs.getD j "" ∈ used
  · rw [if_pos (contains_iff_mem.mpr hm), if_pos hm]
  · rw [if_neg (fun hc => hm (contains_iff_mem.mp hc)), if_neg hm, pos_neg]

theorem attrs_ne_nil_of_not_all {cfg : Config} {used : List String}
    (hav : cfg.attrs.all (fun s => used.contains s) = false) :
    cfg.attrs ≠ [] := by
  intro h0
  rw [h0] at hav
  cases hav

theorem gainsList_ne_nil {cfg : Config} (examples parent : List Ex)
    (used : List String) (hattrs : cfg.attrs ≠ []) :
    gainsList cfg examples parent used ≠ [] := by
  intro h0
  have := gainsList_length cfg examples parent used
  rw [h0] at this
  exact hattrs (List.length_eq_zero.mp this.symm)

theorem getD_mem_of_lt {l : List ℝ} {j : ℕ} (hj : j < l.length) :
    l.getD j 0 ∈ l := by
  rw [List.getD_eq_getElem _ _ hj]
  exact List.getElem_mem hj

/-- C1: when the split branch is reached (non-empty, non-pure examples with
some attribute name unused), the node built carries the attribute index that
is the earliest maximizer of the gain list, where a used attribute is
assigned gain `-1` and an unused one gets `Gain` with `(p, n)` counted over
`parent_examples` by the positive-class predicate: every attribute's gain is
`≤` the selected one's, and every earlier attribute's gain is strictly
below it. -/
theorem C1_gain_selection (cfg : Config) (fuel : ℕ) (depth : ℤ)
    (examples parent : List Ex) (used : List String) (t : Tree)
    (hne : examples ≠ [])
    (hfc : fully_classified examples cfg.classes = false)
    (hav : cfg.attrs.all (fun s => used.contains s) = false)
    (h : _generate cfg (fuel + 1) depth examples parent used = some t) :
    ∃ A cs, t = Tree.node A cs ∧ A < cfg.attrs.length ∧
      (∀ j, j < cfg.attrs.length →
        selGain cfg examples parent used j ≤ selGain cfg examples parent used A) ∧
      (∀ j, j < A →
        selGain cfg examples parent used j < selGain cfg examples parent used A) := by
  have hattrs : cfg.attrs ≠ [] := attrs_ne_nil_of_not_all hav
  have hgl : gainsList cfg examples parent used ≠ [] :=
    gainsList_ne_nil examples parent used hattrs
  have hlen := gainsList_length cfg examples parent used
  have hAlt : idxOfMax (gainsList cfg examples parent used) < cfg.attrs.length := by
    have := idxOfMax_lt_length _ hgl
    omega
  have hmax := getD_idxOfMax _ hgl
  rw [_generate_split hne hfc hav] at h
  cases hloop : loopNew
      (fun exs => _generate cfg fuel (depth - 1) exs examples
        (used ++ [cfg.attrs.getD (idxOfMax (gainsList cfg examples parent used)) ""]))
      (fun vk => examples.filter
        (fun dp => dpGet dp (idxOfMax (gainsList cfg examples parent used)) == vk))
      (decide (depth = 0))
      (Tree.leaf (plurality examples cfg.classes))
      (cfg.domain (idxOfMax (gainsList cfg examples parent used))) with
  | none => rw [hloop] at h; cases h
  | some cs =>
    rw [hloop] at h
    cases h
    refine ⟨idxOfMax (gainsList cfg examples parent used), cs, rfl, hAlt, ?_, ?_⟩
    · intro j hj
      rw [← gainsList_getD_eq_selGain cfg examples parent used hj,
        ← gainsList_getD_eq_selGain cfg examples parent used hAlt, hmax]
      exact le_pyMaxR _ _ (getD_mem_of_lt (by omega))
    · intro j hj
      have hjlt : j < cfg.attrs.length := by omega
      rw [← gainsList_getD_eq_selGain cfg examples parent used hjlt,
        ← gainsList_getD_eq_selGain cfg examples parent used hAlt, hmax]
      exact lt_of_le_of_ne (le_pyMaxR _ _ (getD_mem_of_lt (by omega)))
        (getD_lt_idxOfMax_ne _ j hj)

theorem exsSpec_not_fully_classified :
    fully_classified exsSpec cfgTwo.classes = false := by
  rw [fully_classified]
  simp only [cfgTwo, exsSpec, List.any_eq_false, decide_eq_true_eq]
  intro c hc
  rcases List.mem_cons.mp hc with rfl | hc'
  · rw [plurality_value]
    simp only [List.countP_cons, List.countP_nil, beq_iff_eq,
      if_neg (show ¬("A" : String) = "B" by decide)]
    norm_num
  · rcases List.mem_cons.mp hc' with rfl | hc''
    · rw [plurality_value]
      simp only [List.countP_cons, List.countP_nil, beq_iff_eq,
        if_neg (show ¬("B" : String) = "A" by decide)]
      norm_num
    · simp at hc''

/-- C1, witness: the split branch taken at depth 0 on the spec's four-example
set. -/
theorem C1_gain_selection_witness :
    ∃ A cs,
      Tree.node (idxOfMax (gainsList cfgTwo exsSpec exsSpec []))
        (List.replicate
          (cfgTwo.domain (idxOfMax (gainsList cfgTwo exsSpec exsSpec []))).length
          (Tree.leaf (plurality exsSpec cfgTwo.classes))) = Tree.node A cs ∧
      A < cfgTwo.attrs.length ∧
      (∀ j, j < cfgTwo.attrs.length →
        selGain cfgTwo exsSpec exsSpec [] j ≤ selGain cfgTwo exsSpec exsSpec [] A) ∧
      (∀ j, j < A →
        selGain cfgTwo exsSpec exsSpec [] j < selGain cfgTwo exsSpec exsSpec [] A) :=
  C1_gain_selection cfgTwo 0 0 exsSpec exsSpec [] _
    (by simp [exsSpec])
    exsSpec_not_fully_classified
    (by rfl)
    (by
      rw [_generate_depth_zero 0 (by simp [exsSpec]) exsSpec_not_fully_classified (by rfl)])

/-! ### C10: refinement between the two source versions -/

theorem contains_congr {u1 u2 : List String} (h : ∀ s, s ∈ u1 ↔ s ∈ u2)
    (s : String) : u1.contains s = u2.contains s := by
  rw [Bool.eq_iff_iff, contains_iff_mem, contains_iff_mem]
  exact h s

theorem all_contains_congr (attrs : List String) {u1 u2 : List String}
    (h : ∀ s, s ∈ u1 ↔ s ∈ u2) :
    attrs.all (fun s => u1.contains s) = attrs.all (fun s => u2.contains s) := by
  have hfun : (fun s => u1.contains s) = (fun s => u2.contains s) :=
    funext (contains_congr h)
  rw [hfun]

theorem gainsList_congr_used (cfg : Config) (examples parent : List Ex)
    {u1 u2 : List String} (h : ∀ s, s ∈ u1 ↔ s ∈ u2) :
    gainsList cfg examples parent u1 = gainsList cfg examples parent u2 := by
  rw [gainsList, gainsList]
  apply List.map_congr_left
  intro a _
  rw [contains_congr h]

theorem mem_append_congr {u1 u2 : List String} (h : ∀ s, s ∈ u1 ↔ s ∈ u2)
    (x : String) : ∀ s, s ∈ u1 ++ [x] ↔ s ∈ u2 ++ [x] := by
  intro s
  rw [List.mem_append, List.mem_append, h s]

theorem loopNew_congr {recur1 recur2 : List Ex → Option Tree}
    {filt : String → List Ex} {isZero : Bool} {plur : Tree}
    (h : ∀ exs, recur1 exs = recur2 exs) :
    ∀ V : List String,
      loopNew recur1 filt isZero plur V = loopNew recur2 filt isZero plur V := by
  intro V
  induction V with
  | nil => rfl
  | cons vk rest ih =>
    cases isZero with
    | true => rw [loopNew, loopNew, if_pos rfl, if_pos rfl, ih]
    | false =>
      rw [loopNew, loopNew, if_neg (by simp), if_neg (by simp), h (filt vk), ih]

/-- The result of the (new) inner recursion depends on the used-attribute
list only through membership. -/
theorem _generate_congr_used (cfg : Config) :
    ∀ (fuel : ℕ) (depth : ℤ) (examples parent : List Ex) (u1 u2 : List String),
      (∀ s, s ∈ u1 ↔ s ∈ u2) →
      _generate cfg fuel depth examples parent u1 =
        _generate cfg fuel depth examples parent u2 := by
  intro fuel
  induction fuel with
  | zero =>
    intro depth examples parent u1 u2 _
    rw [_generate, _generate]
  | succ fuel' ih =>
    intro depth examples parent u1 u2 hmem
    by_cases hne : examples = []
    · subst hne
      rw [_generate, _generate, if_pos (show (List.isEmpty []) = true from rfl),
        if_pos (show (List.isEmpty ([] : List Ex)) = true from rfl)]
    · by_cases hfc : fully_classified examples cfg.classes = true
      · rw [_generate_pure fuel' depth parent u1 hne hfc,
          _generate_pure fuel' depth parent u2 hne hfc]
      · simp only [Bool.not_eq_true] at hfc
        by_cases hav : cfg.attrs.all (fun s => u1.contains s) = true
        · have hav2 : cfg.attrs.all (fun s => u2.contains s) = true := by
            rw [← all_contains_congr cfg.attrs hmem]
            exact hav
          rw [_generate_no_attrs fuel' depth hne hfc hav,
            _generate_no_attrs fuel' depth hne hfc hav2]
        · simp only [Bool.not_eq_true] at hav
          have hav2 : cfg.attrs.all (fun s => u2.contains s) = false := by
            rw [← all_contains_congr cfg.attrs hmem]
            exact hav
          rw [_generate_split hne hfc hav, _generate_split hne hfc hav2]
          rw [← gainsList_congr_used cfg examples parent hmem]
          rw [loopNew_congr (fun exs =>
            ih (depth - 1) exs examples _ _ (mem_append_congr hmem _))]

theorem _generateOld_pure {cfg : Config} {examples : List Ex} (fuel : ℕ)
    (depth : ℤ) (parent : List Ex) (used : List String)
    (hne : examples ≠ []) (hfc : fully_classified examples cfg.classes = true) :
    _generateOld cfg (fuel + 1) depth examples parent used =
      some (Tree.leaf (examples.headD default).classification) := by
  rw [_generateOld]
  rw [if_neg (by rw [isEmpty_false_of_ne_nil hne]; simp), if_pos hfc]

theorem _generateOld_no_attrs {cfg : Config} {examples parent : List Ex}
    {used : List String} (fuel : ℕ) (depth : ℤ) (hne : examples ≠ [])
    (hfc : fully_classified examples cfg.classes = false)
    (hav : cfg.attrs.all (fun s => used.contains s) = true) :
    _generateOld cfg (fuel + 1) depth examples parent used =
      some (Tree.leaf (plurality examples cfg.classes)) := by
  rw [_generateOld]
  rw [if_neg (by rw [isEmpty_false_of_ne_nil hne]; simp), if_neg (by rw [hfc]; simp),
    if_pos hav]

theorem _generateOld_split {cfg : Config} {fuel : ℕ} {depth : ℤ}
    {examples parent : List Ex} {used : List String}
    (hne : examples ≠ [])
    (hfc : fully_classified examples cfg.classes = false)
    (hav : cfg.attrs.all (fun s => used.contains s) = false) :
    _generateOld cfg (fuel + 1) depth examples parent used =
      (match loopOld (fun exs u => _generateOld cfg fuel (depth - 1) exs examples u)
          (fun vk => examples.filter
            (fun dp => dpGet dp (idxOfMax (gainsList cfg examples parent used)) == vk))
          (decide (depth = 0))
          (Tree.leaf (plurality examples cfg.classes))
          (cfg.attrs.getD (idxOfMax (gainsList cfg examples parent used)) "")
          used (cfg.domain (idxOfMax (gainsList cfg examples parent used))) with
       | none => none
       | some cs => some (Tree.node (idxOfMax (gainsList cfg examples parent used)) cs)) := by
  rw [_generateOld]
  rw [if_neg (by rw [isEmpty_false_of_ne_nil hne]; simp), if_neg (by rw [hfc]; simp),
    if_neg (by rw [hav]; simp)]
  rfl

/-- The child loop of the old version (appending the selected attribute name
to the used list once per domain value) agrees with the child loop of the new
version (appending it once, before the loop), because the recursion only sees
the used list through membership. -/
theorem loopOld_eq_loopNew
    (recurO : List Ex → List String → Option Tree) (recurN : List Ex → Option Tree)
    (filt : String → List Ex) (isZero : Bool) (plur : Tree) (name : String)
    (used0 : List String)
    (hrec : ∀ exs u, (∀ s, s ∈ u ↔ s ∈ used0 ++ [name]) → recurO exs u = recurN exs) :
    ∀ (V : List String) (u : List String),
      (∀ s, s ∈ u ++ [name] ↔ s ∈ used0 ++ [name]) →
      loopOld recurO filt isZero plur name u V = loopNew recurN filt isZero plur V := by
  intro V
  induction V with
  | nil => intro u _; rw [loopOld, loopNew]
  | cons vk rest ih =>
    intro u hu
    cases isZero with
    | true => rw [loopOld, loopNew, if_pos rfl, if_pos rfl, ih u hu]
    | false =>
      rw [loopOld, loopNew, if_neg (by simp), if_neg (by simp)]
      rw [hrec (filt vk) (u ++ [name]) hu]
      have hu' : ∀ s, s ∈ (u ++ [name]) ++ [name] ↔ s ∈ used0 ++ [name] := by
        intro s
        have hs := hu s
        simp only [List.mem_append] at hs ⊢
        tauto
      rw [ih (u ++ [name]) hu']

/-- C10: for every input over the same configuration, the inner recursive
procedure of src/DecisionTree.py and that of src/decisiontree.py return the
same result; appending the selected attribute once per domain value inside
the loop is membership-equivalent to appending it once before the loop. -/
theorem C10_old_new_refinement (cfg : Config) :
    ∀ (fuel : ℕ) (depth : ℤ) (examples parent : List Ex) (used : List String),
      _generateOld cfg fuel depth examples parent used =
        _generate cfg fuel depth examples parent used := by
  intro fuel
  induction fuel with
  | zero =>
    intro depth examples parent used
    rw [_generateOld, _generate]
  | succ fuel' ih =>
    intro depth examples parent used
    by_cases hne : examples = []
    · subst hne
      rw [_generateOld, _generate, if_pos (show (List.isEmpty []) = true from rfl),
        if_pos (show (List.isEmpty ([] : List Ex)) = true from rfl)]
    · by_cases hfc : fully_classified examples cfg.classes = true
      · rw [_generateOld_pure fuel' depth parent used hne hfc,
          _generate_pure fuel' depth parent used hne hfc]
      · simp only [Bool.not_eq_true] at hfc
        by_cases hav : cfg.attrs.all (fun s => used.contains s) = true
        · rw [_generateOld_no_attrs fuel' depth hne hfc hav,
            _generate_no_attrs fuel' depth hne hfc hav]
        · simp only [Bool.not_eq_true] at hav
          rw [_generateOld_split hne hfc hav, _generate_split hne hfc hav]
          rw [loopOld_eq_loopNew
            (fun exs u => _generateOld cfg fuel' (depth - 1) exs examples u)
            (fun exs => _generate cfg fuel' (depth - 1) exs examples
              (used ++ [cfg.attrs.getD (idxOfMax (gainsList cfg examples parent used)) ""]))
            (fun vk => examples.filter
              (fun dp => dpGet dp (idxOfMax (gainsList cfg examples parent used)) == vk))
            (decide (depth = 0))
            (Tree.leaf (plurality examples cfg.classes))
            (cfg.attrs.getD (idxOfMax (gainsList cfg examples parent used)) "")
            used
            (fun exs u hu => by
              dsimp only
              rw [ih (depth - 1) exs examples u]
              exact _generate_congr_used cfg fuel' (depth - 1) exs examples u _ hu)
            (cfg.domain (idxOfMax (gainsList cfg examples parent used)))
            used
            (fun s => Iff.rfl)]

/-! ### C3: no attribute repeats along a path -/

theorem sum_map_add_nat {α : Type} (f g : α → ℕ) :
    ∀ l : List α, (l.map (fun x => f x + g x)).sum = (l.map f).sum + (l.map g).sum := by
  intro l
  induction l with
  | nil => rfl
  | cons x xs ih =>
    simp only [List.map_cons, List.sum_cons, ih]
    omega

theorem sum_indicator_not_mem (v : String) :
    ∀ V : List String, v ∉ V →
      (V.map (fun d => if v = d then 1 else 0)).sum = 0 := by
  intro V
  induction V with
  | nil => intro _; rfl
  | cons d ds ih =>
    intro hv
    rw [List.map_cons, List.sum_cons,
      if_neg (fun h => hv (by rw [h]; exact List.mem_cons_self _ _)),
      ih (fun h => hv (List.mem_cons_of_mem _ h))]

theorem sum_indicator_le_one (v : String) :
    ∀ V : List String, V.Nodup →
      (V.map (fun d => if v = d then 1 else 0)).sum ≤ 1 := by
  intro V
  induction V with
  | nil => intro _; simp
  | cons d ds ih =>
    intro hnd
    obtain ⟨hdn, hnd'⟩ := List.nodup_cons.mp hnd
    rw [List.map_cons, List.sum_cons]
    by_cases hv : v = d
    · subst hv
      rw [if_pos rfl, sum_indicator_not_mem v ds hdn]
    · rw [if_neg hv]
      have := ih hnd'
      omega

/-- With distinct domain values, the partitions of one attribute are
disjoint, so their sizes sum to at most the number of examples. -/
theorem sum_filter_length_le {α : Type} (g : α → String) :
    ∀ (l : List α) (V : List String), V.Nodup →
      (V.map (fun d => (l.filter (fun x => g x == d)).length)).sum ≤ l.length := by
  intro l
  induction l with
  | nil =>
    intro V _
    simp
  | cons x xs ih =>
    intro V hV
    have hsplit : V.map (fun d => ((x :: xs).filter (fun y => g y == d)).length) =
        V.map (fun d => (if g x = d then 1 else 0) + (xs.filter (fun y => g y == d)).length) := by
      apply List.map_congr_left
      intro d _
      by_cases hgx : g x = d
      · rw [List.filter_cons_of_pos (by simp [hgx]), if_pos hgx, List.length_cons]
        omega
      · rw [List.filter_cons_of_neg (by simp [hgx]), if_neg hgx]
        omega
    rw [hsplit, sum_map_add_nat]
    have h1 := sum_indicator_le_one (g x) V hV
    have h2 := ih V hV
    simp only [List.length_cons]
    omega

theorem sum_map_div {α : Type} (g : α → ℝ) (c : ℝ) :
    ∀ V : List α, (V.map (fun d => g d / c)).sum = (V.map g).sum / c := by
  intro V
  induction V with
  | nil => simp
  | cons d ds ih => simp [ih, add_div]

theorem Remainder_nonneg (examples : List Ex) (A : ℕ) (V : List String)
    (p n : ℕ) (f : Ex → Bool) : 0 ≤ Remainder examples A V p n f := by
  rw [Remainder]
  apply List.sum_nonneg
  intro x hx
  rw [List.mem_map] at hx
  obtain ⟨d, _, rfl⟩ := hx
  dsimp only
  split_ifs with hc
  · exact le_refl 0
  · exact mul_nonneg (div_nonneg (by positivity) (by positivity)) (B_nonneg _)

theorem Remainder_le_one (examples : List Ex) (A : ℕ) (V : List String)
    (p n : ℕ) (f : Ex → Bool) (hV : V.Nodup) (hlen : examples.length ≤ p + n) :
    Remainder examples A V p n f ≤ 1 := by
  by_cases hpn : p + n = 0
  · have hz : Remainder examples A V p n f = 0 := by
      rw [Remainder]
      apply List.sum_eq_zero
      intro x hx
      rw [List.mem_map] at hx
      obtain ⟨d, _, rfl⟩ := hx
      dsimp only
      rw [if_pos (Or.inr hpn)]
    rw [hz]
    norm_num
  · have hpnR : (0 : ℝ) < (p : ℝ) + (n : ℝ) := by
      have h0 : 0 < p + n := Nat.pos_of_ne_zero hpn
      have : (0 : ℝ) < ((p + n : ℕ) : ℝ) := by exact_mod_cast h0
      push_cast at this
      linarith
    have hstep1 : Remainder examples A V p n f ≤
        (V.map (fun d => ((examples.filter (fun dp => dpGet dp A == d)).length : ℝ) /
          ((p : ℝ) + (n : ℝ)))).sum := by
      rw [Remainder]
      apply List.sum_le_sum
      intro d _
      dsimp only
      split_ifs with hc
      · positivity
      · push_neg at hc
        obtain ⟨hc1, _⟩ := hc
        have hple : (examples.filter (fun dp => dpGet dp A == d)).countP f ≤
            (examples.filter (fun dp => dpGet dp A == d)).length :=
          List.countP_le_length f
        have hsum : ((examples.filter (fun dp => dpGet dp A == d)).countP f : ℝ) +
            (((examples.filter (fun dp => dpGet dp A == d)).length -
              (examples.filter (fun dp => dpGet dp A == d)).countP f : ℕ) : ℝ) =
            ((examples.filter (fun dp => dpGet dp A == d)).length : ℝ) := by
          rw [Nat.cast_sub hple]
          ring
        rw [hsum]
        exact mul_le_of_le_one_right (div_nonneg (by positivity) hpnR.le) (B_le_one _)
    have hstep2 : (V.map (fun d => ((examples.filter (fun dp => dpGet dp A == d)).length : ℝ) /
        ((p : ℝ) + (n : ℝ)))).sum ≤ 1 := by
      rw [sum_map_div (fun d => ((examples.filter (fun dp => dpGet dp A == d)).length : ℝ))
        ((p : ℝ) + (n : ℝ)) V]
      rw [div_le_one hpnR]
      have hcast : (V.map (fun d =>
          ((examples.filter (fun dp => dpGet dp A == d)).length : ℝ))).sum =
          (((V.map (fun d => (examples.filter (fun dp => dpGet dp A == d)).length)).sum : ℕ) : ℝ) := by
        rw [Nat.cast_list_sum, List.map_map]
        rfl
      rw [hcast]
      have hle := sum_filter_length_le (fun dp => dpGet dp A) examples V hV
      have : ((V.map (fun d => (examples.filter (fun dp => dpGet dp A == d)).length)).sum : ℕ) ≤ p + n :=
        le_trans hle hlen
      calc (((V.map (fun d => (examples.filter (fun dp => dpGet dp A == d)).length)).sum : ℕ) : ℝ)
          ≤ ((p + n : ℕ) : ℝ) := by exact_mod_cast this
        _ = (p : ℝ) + (n : ℝ) := by push_cast; ring
    exact le_trans hstep1 hstep2

/-- On the calls the builder makes (the current examples are a sublist of the
non-empty parent examples and the attribute's domain has no duplicates), the
information gain of any attribute is strictly greater than `-1`, the sentinel
assigned to used attributes. -/
theorem Gain_gt_neg_one (examples parent : List Ex) (A : ℕ) (V : List String)
    (f : Ex → Bool) (hV : V.Nodup) (hsub : examples.Sublist parent)
    (hpar : parent ≠ []) :
    -1 < Gain examples A V (parent.countP f) (parent.length - parent.countP f) f := by
  have hple : parent.countP f ≤ parent.length := List.countP_le_length f
  have hlpos : 0 < parent.length := List.length_pos.mpr hpar
  have hlen : examples.length ≤ parent.countP f + (parent.length - parent.countP f) := by
    have := hsub.length_le
    omega
  rw [Gain]
  by_cases hp0 : parent.countP f = 0
  · have hall : ∀ e ∈ parent, ¬(f e = true) := List.countP_eq_zero.mp hp0
    have hRz : Remainder examples A V (parent.countP f)
        (parent.length - parent.countP f) f = 0 := by
      rw [Remainder]
      apply List.sum_eq_zero
      intro x hx
      rw [List.mem_map] at hx
      obtain ⟨d, _, rfl⟩ := hx
      dsimp only
      split_ifs with hc
      · rfl
      · have hpk : (examples.filter (fun dp => dpGet dp A == d)).countP f = 0 := by
          rw [List.countP_eq_zero]
          intro e he
          exact hall e (hsub.subset (List.mem_of_mem_filter he))
        rw [hpk]
        simp [B_zero]
    rw [hRz, hp0]
    simp [B_zero]
  · by_cases hn0 : parent.length - parent.countP f = 0
    · have hpeq : parent.countP f = parent.length := by omega
      have hall : ∀ e ∈ parent, f e = true := List.countP_eq_length.mp hpeq
      have hRz : Remainder examples A V (parent.countP f)
          (parent.length - parent.countP f) f = 0 := by
        rw [Remainder]
        apply List.sum_eq_zero
        intro x hx
        rw [List.mem_map] at hx
        obtain ⟨d, _, rfl⟩ := hx
        dsimp only
        split_ifs with hc
        · rfl
        · push_neg at hc
          obtain ⟨hc1, _⟩ := hc
          have hpk : (examples.filter (fun dp => dpGet dp A == d)).countP f =
              (examples.filter (fun dp => dpGet dp A == d)).length :=
            List.countP_eq_length.mpr
              (fun e he => hall e (hsub.subset (List.mem_of_mem_filter he)))
          have hlenne : ((examples.filter (fun dp => dpGet dp A == d)).length : ℝ) ≠ 0 := by
            have : (examples.filter (fun dp => dpGet dp A == d)).length ≠ 0 := by omega
            exact_mod_cast this
          rw [hpk, Nat.sub_self]
          push_cast
          rw [add_zero, div_self hlenne, B_one]
          ring
      rw [hRz, hn0]
      have hpne : ((parent.countP f : ℕ) : ℝ) ≠ 0 := by
        have : parent.countP f ≠ 0 := hp0
        exact_mod_cast this
      push_cast
      rw [add_zero, div_self hpne, B_one]
      norm_num
    · have hppos : 0 < parent.countP f := Nat.pos_of_ne_zero hp0
      have hnpos : 0 < parent.length - parent.countP f := Nat.pos_of_ne_zero hn0
      have hpR : (0 : ℝ) < (parent.countP f : ℝ) := by exact_mod_cast hppos
      have hnR : (0 : ℝ) < ((parent.length - parent.countP f : ℕ) : ℝ) := by
        exact_mod_cast hnpos
      have hq0 : (0 : ℝ) < (parent.countP f : ℝ) /
          ((parent.countP f : ℝ) + ((parent.length - parent.countP f : ℕ) : ℝ)) :=
        div_pos hpR (by linarith)
      have hq1 : (parent.countP f : ℝ) /
          ((parent.countP f : ℝ) + ((parent.length - parent.countP f : ℕ) : ℝ)) < 1 := by
        rw [div_lt_one (by linarith)]
        linarith
      have hB := B_pos hq0 hq1
      have hR1 := Remainder_le_one examples A V (parent.countP f)
        (parent.length - parent.countP f) f hV hlen
      linarith

/-- In the split branch, the attribute selected by `gain.index(max(gain))`
is one whose name is not yet used: every unused attribute's gain is `> -1`,
so the maximum exceeds the `-1` sentinel carried by every used attribute. -/
theorem selected_attr_unused (cfg : Config) (examples parent : List Ex)
    (used : List String)
    (hdom : ∀ a, a < cfg.attrs.length → (cfg.domain a).Nodup)
    (hsub : examples.Sublist parent) (hne : examples ≠ [])
    (hav : cfg.attrs.all (fun s => used.contains s) = false) :
    idxOfMax (gainsList cfg examples parent used) < cfg.attrs.length ∧
    cfg.attrs.getD (idxOfMax (gainsList cfg examples parent used)) "" ∉ used := by
  have hattrs := attrs_ne_nil_of_not_all hav
  have hgl := gainsList_ne_nil examples parent used hattrs
  have hlen := gainsList_length cfg examples parent used
  have hAlt : idxOfMax (gainsList cfg examples parent used) < cfg.attrs.length := by
    have := idxOfMax_lt_length _ hgl
    omega
  refine ⟨hAlt, ?_⟩
  have hpar : parent ≠ [] := by
    intro h0
    subst h0
    exact hne (List.sublist_nil.mp hsub)
  obtain ⟨s, hs, hsfalse⟩ := List.all_eq_false.mp hav
  have hsnot : s ∉ used := fun hm => hsfalse (contains_iff_mem.mpr hm)
  obtain ⟨a0, ha0⟩ := List.mem_iff_get.mp hs
  have ha0len : (a0 : ℕ) < cfg.attrs.length := a0.isLt
  have hname : cfg.attrs.getD (a0 : ℕ) "" = s := by
    rw [List.getD_eq_getElem _ _ ha0len, ← ha0]
    exact (List.get_eq_getElem _ _).symm
  have hgval : (gainsList cfg examples parent used).getD (a0 : ℕ) 0 =
      Gain examples (a0 : ℕ) (cfg.domain (a0 : ℕ))
        (pos_neg parent cfg.classifier).1 (pos_neg parent cfg.classifier).2
        cfg.classifier := by
    rw [gainsList, getD_map_range _ _ _ _ ha0len,
      if_neg (fun hc => hsnot (hname ▸ contains_iff_mem.mp hc))]
  have hgain : (-1 : ℝ) < (gainsList cfg examples parent used).getD (a0 : ℕ) 0 := by
    rw [hgval]
    exact Gain_gt_neg_one examples parent (a0 : ℕ) (cfg.domain (a0 : ℕ))
      cfg.classifier (hdom (a0 : ℕ) ha0len) hsub hpar
  have hmax_gt : (-1 : ℝ) < pyMaxR (gainsList cfg examples parent used) :=
    lt_of_lt_of_le hgain (le_pyMaxR _ _ (getD_mem_of_lt (by omega)))
  have hsel : (gainsList cfg examples parent used).getD
      (idxOfMax (gainsList cfg examples parent used)) 0 =
      pyMaxR (gainsList cfg examples parent used) := getD_idxOfMax _ hgl
  intro hmem
  have hselval : (gainsList cfg examples parent used).getD
      (idxOfMax (gainsList cfg examples parent used)) 0 = (-1 : ℝ) := by
    generalize hj : idxOfMax (gainsList cfg examples parent used) = j at hAlt hmem
    rw [gainsList, getD_map_range _ _ _ _ hAlt, if_pos (contains_iff_mem.mpr hmem)]
  rw [hselval] at hsel
  rw [← hsel] at hmax_gt
  exact lt_irrefl _ hmax_gt

theorem NoRepeatL_iff (cfg : Config) (used : List String) : ∀ (cs : List Tree),
    NoRepeatL cfg used cs ↔ ∀ c ∈ cs, NoRepeat cfg used c := by
  intro cs
  induction cs with
  | nil => simp [NoRepeatL]
  | cons c cs' ih =>
    rw [NoRepeatL, ih]
    constructor
    · rintro ⟨h1, h2⟩ x hx
      rcases List.mem_cons.mp hx with rfl | hx'
      · exact h1
      · exact h2 x hx'
    · intro hx
      exact ⟨hx c (List.mem_cons_self _ _), fun x hx' => hx x (List.mem_cons_of_mem _ hx')⟩

/-- The builder's invariant: on a call whose examples are a sublist of its
parent examples (true of every call `generate` makes), the produced tree
never splits on an attribute name in the ambient used list, nor twice along
a path. -/
theorem _generate_noRepeat (cfg : Config)
    (hdom : ∀ a, a < cfg.attrs.length → (cfg.domain a).Nodup) :
    ∀ (fuel : ℕ) (depth : ℤ) (examples parent : List Ex) (used : List String) (t : Tree),
      examples.Sublist parent →
      _generate cfg fuel depth examples parent used = some t →
      NoRepeat cfg used t := by
  intro fuel
  induction fuel with
  | zero =>
    intro depth examples parent used t _ h
    rw [_generate] at h
    cases h
  | succ fuel' ih =>
    intro depth examples parent used t hsub h
    by_cases hne : examples = []
    · subst hne
      rw [_generate, if_pos (by rfl)] at h
      cases h
      rw [NoRepeat]
      trivial
    · by_cases hfc : fully_classified examples cfg.classes = true
      · rw [_generate_pure fuel' depth parent used hne hfc] at h
        cases h
        rw [NoRepeat]
        trivial
      · simp only [Bool.not_eq_true] at hfc
        by_cases hav : cfg.attrs.all (fun s => used.contains s) = true
        · rw [_generate_no_attrs fuel' depth hne hfc hav] at h
          cases h
          rw [NoRepeat]
          trivial
        · simp only [Bool.not_eq_true] at hav
          obtain ⟨hAlt, hAnot⟩ := selected_attr_unused cfg examples parent used hdom hsub hne hav
          rw [_generate_split hne hfc hav] at h
          cases hloop : loopNew
              (fun exs => _generate cfg fuel' (depth - 1) exs examples
                (used ++ [cfg.attrs.getD (idxOfMax (gainsList cfg examples parent used)) ""]))
              (fun vk => examples.filter
                (fun dp => dpGet dp (idxOfMax (gainsList cfg examples parent used)) == vk))
              (decide (depth = 0))
              (Tree.leaf (plurality examples cfg.classes))
              (cfg.domain (idxOfMax (gainsList cfg examples parent used))) with
          | none => rw [hloop] at h; cases h
          | some cs =>
            rw [hloop] at h
            cases h
            rw [NoRepeat]
            refine ⟨hAnot, hAlt, (NoRepeatL_iff cfg _ cs).mpr ?_⟩
            intro c hc
            rcases loopNew_mem hloop c hc with rfl | ⟨vk, _, hcall⟩
            · rw [NoRepeat]
              trivial
            · exact ih (depth - 1) _ examples _ c (List.filter_sublist _) hcall

mutual

/-- Along every path of a tree satisfying `NoRepeat`, the splitting-attribute
names are pairwise distinct and all avoid the ambient used list. -/
theorem noRepeat_paths (cfg : Config) (used : List String) (t : Tree)
    (h : NoRepeat cfg used t) : ∀ p ∈ pathAttrs t,
      (p.map (fun a => cfg.attrs.getD a "")).Nodup ∧
      (∀ a ∈ p, cfg.attrs.getD a "" ∉ used) := by
  match t with
  | Tree.leaf l =>
    intro p hp
    rw [pathAttrs] at hp
    rcases List.mem_singleton.mp hp with rfl
    exact ⟨List.nodup_nil, by intro a ha; simp at ha⟩
  | Tree.degen l =>
    intro p hp
    rw [pathAttrs] at hp
    rcases List.mem_singleton.mp hp with rfl
    exact ⟨List.nodup_nil, by intro a ha; simp at ha⟩
  | Tree.node A cs =>
    intro p hp
    rw [pathAttrs] at hp
    rw [List.mem_map] at hp
    obtain ⟨p', hp', rfl⟩ := hp
    rw [NoRepeat] at h
    obtain ⟨hnotin, hA, hL⟩ := h
    obtain ⟨hnd, hnotin'⟩ :=
      noRepeatL_paths cfg (used ++ [cfg.attrs.getD A ""]) cs hL p' hp'
    constructor
    · rw [List.map_cons, List.nodup_cons]
      refine ⟨?_, hnd⟩
      intro hmem
      rw [List.mem_map] at hmem
      obtain ⟨a, ha, heq⟩ := hmem
      exact (hnotin' a ha) (List.mem_append.mpr (Or.inr (by rw [heq]; exact List.mem_singleton.mpr rfl)))
    · intro a ha
      rcases List.mem_cons.mp ha with rfl | ha'
      · exact hnotin
      · exact fun hmem => (hnotin' a ha') (List.mem_append.mpr (Or.inl hmem))

/-- `noRepeat_paths` lifted to a list of subtrees. -/
theorem noRepeatL_paths (cfg : Config) (used : List String) (cs : List Tree)
    (h : NoRepeatL cfg used cs) : ∀ p ∈ pathAttrsL cs,
      (p.map (fun a => cfg.attrs.getD a "")).Nodup ∧
      (∀ a ∈ p, cfg.attrs.getD a "" ∉ used) := by
  match cs with
  | [] =>
    intro p hp
    rw [pathAttrsL] at hp
    simp at hp
  | c :: cs' =>
    intro p hp
    rw [pathAttrsL] at hp
    rw [NoRepeatL] at h
    rcases List.mem_append.mp hp with h1 | h2
    · exact noRepeat_paths cfg used c h.1 p h1
    · exact noRepeatL_paths cfg used cs' h.2 p h2

end

/-- C3: on well-formed input (each attribute's declared domain has distinct
values), along any root-to-leaf path of a tree returned by `generate` no
attribute index appears as a splitting attribute more than once. -/
theorem C3_no_repeat (cfg : Config) (examples : List Ex) (depth : ℤ) (t : Tree)
    (hdom : ∀ a, a < cfg.attrs.length → (cfg.domain a).Nodup)
    (h : generate cfg examples depth [] = some t) :
    ∀ p ∈ pathAttrs t, p.Nodup := by
  rw [generate] at h
  cases hg : _generate cfg (cfg.attrs.length + 1) depth examples examples [] with
  | none => rw [hg] at h; cases h
  | some t0 =>
    rw [hg] at h
    have hnr := _generate_noRepeat cfg hdom (cfg.attrs.length + 1) depth
      examples examples [] t0 (List.Sublist.refl _) hg
    cases t0 with
    | leaf s =>
      cases h
      intro p hp
      rw [pathAttrs] at hp
      rcases List.mem_singleton.mp hp with rfl
      exact List.nodup_nil
    | degen s =>
      cases h
      intro p hp
      rw [pathAttrs] at hp
      rcases List.mem_singleton.mp hp with rfl
      exact List.nodup_nil
    | node A cs =>
      cases h
      intro p hp
      exact ((noRepeat_paths cfg [] (Tree.node A cs) hnr p hp).1).of_map

/-- C3, witness: every hypothesis discharged at a concrete configuration and
the resulting path instantiated. -/
theorem C3_no_repeat_witness : ([] : List ℕ).Nodup :=
  C3_no_repeat cfgOne exsPure (-1) (Tree.degen "A")
    (by
      intro a _
      show (["T", "F"] : List String).Nodup
      decide)
    (generate_uniform (-1) []
      (by simp [exsPure])
      (by intro x hx; simp only [exsPure, List.mem_singleton] at hx; subst hx; rfl)
      (by simp [cfgOne]))
    []
    (by rw [pathAttrs]; exact List.mem_singleton.mpr rfl)

end DecisionTree
